import Mathlib

/-!
Verification development for the `inky-photo-frame` slideshow controller
(`src/inky_photo_frame.py`).  The rotation/history state machine, the
retry decorator, the geometry and palette pipeline, directory listing and
persistence loading are shallowly embedded as executable Lean functions,
and the testable properties of the specification are settled against them.

Paths are modelled as `String`s, timestamps as `Nat`s (ISO-8601 strings
compare lexicographically, hence order-isomorphically to their time
values), the random shuffles of `random.shuffle` as an arbitrary function
`sigma : List String -> List String` assumed to permute its argument, and
the display hardware as an oracle `Nat -> Except String Unit` giving the
outcome of each attempted refresh.
-/

namespace InkyPhotoFrame

/-- One entry of the `photo_metadata` map of the history (see `cleanup_old_photos` and
`display_new_photo`): time the photo was added, its size, and how many
times it has been displayed. -/
structure PhotoMeta where
  addedAt : Nat
  sizeBytes : Nat
  displayedCount : Nat
deriving DecidableEq, Repr

/-- The persisted rotation state `self.history`: shown stack, pending
queue, optional current photo, optional last scheduled-change timestamp,
and per-photo metadata (an association list, mirroring the JSON object
with its insertion order). -/
structure History where
  shown : List String
  pending : List String
  current : Option String
  lastChange : Option Nat
  metadata : List (String × PhotoMeta)
deriving DecidableEq, Repr

/-- The fresh history created by `load_history` when no history file
exists. -/
def freshHistory : History :=
  { shown := [], pending := [], current := none, lastChange := none, metadata := [] }

/-- Dictionary lookup in the metadata association list. -/
def lookupMeta (m : List (String × PhotoMeta)) (p : String) : Option PhotoMeta :=
  (m.find? (fun kv => kv.1 == p)).map (·.2)

/-- Increment the `displayed_count` metadata field of photo `p` when the
key is present (the increment inside `display_photo`). -/
def bumpDisplayed (p : String) (m : List (String × PhotoMeta)) :
    List (String × PhotoMeta) :=
  m.map (fun kv =>
    if kv.1 == p then (kv.1, { kv.2 with displayedCount := kv.2.displayedCount + 1 })
    else kv)

/-- The photos of `shown` that still exist on disk: the first filter of
`refresh_pending_list`. -/
def keptShown (disk : List String) (s : History) : List String :=
  s.shown.filter (fun p => decide (p ∈ disk))

/-- The photos of `pending` that still exist on disk: the second filter of
`refresh_pending_list`. -/
def keptPending (disk : List String) (s : History) : List String :=
  s.pending.filter (fun p => decide (p ∈ disk))

/-- The known set (shown, pending and the current photo) as computed by
`refresh_pending_list` after the removal step. -/
def knownPhotos (disk : List String) (s : History) : List String :=
  keptShown disk s ++ keptPending disk s ++ s.current.toList

/-- The disk photos not yet known: the new photos to append to pending. -/
def newFromDisk (disk : List String) (s : History) : List String :=
  disk.filter (fun p => decide (p ∉ knownPhotos disk s))

/-- The pending list of `refresh_pending_list` after deleted photos were
removed and new photos appended, before the exhaustion checks. -/
def pendingAfterAdd (disk : List String) (s : History) : List String :=
  keptPending disk s ++ newFromDisk disk s

/-- `InkyPhotoFrame.refresh_pending_list`: drop deleted photos from
`shown`/`pending`, append unseen disk photos to `pending`, then run the
two sequential exhaustion checks — if `pending` is empty while `shown` is
not, move a shuffled copy of `shown` into `pending` and clear `shown`;
if both are then empty, seed `pending` with a shuffled copy of the whole
disk listing.  `sigma` stands for `random.shuffle`. -/
def refresh_pending_list (sigma : List String → List String)
    (disk : List String) (s : History) : History :=
  let shown1 := keptShown disk s
  let pending2 := pendingAfterAdd disk s
  let s1 :=
    if pending2.isEmpty && !shown1.isEmpty then
      { s with shown := [], pending := sigma shown1 }
    else
      { s with shown := shown1, pending := pending2 }
  if s1.pending.isEmpty && s1.shown.isEmpty then
    { s1 with pending := sigma disk }
  else
    s1

/-- `InkyPhotoFrame.next_photo` (and the queue part of `change_photo`):
refresh the pending list, then, if any photo is pending, pop the head,
push the old current onto `shown`, and make the popped photo current.
`ok` records whether the subsequent `display_photo` succeeded (only the
metadata display counter depends on it).  Returns the new current when a
change happened. -/
def next_photo (sigma : List String → List String) (disk : List String)
    (ok : Bool) (s : History) : History × Option String :=
  let s1 := refresh_pending_list sigma disk s
  match s1.pending with
  | [] => (s1, none)
  | p :: rest =>
      let s2 := { s1 with
        shown := s1.shown ++ s1.current.toList
        pending := rest
        current := some p }
      (if ok then { s2 with metadata := bumpDisplayed p s2.metadata } else s2, some p)

/-- `InkyPhotoFrame.change_photo`: identical queue mutation to
`next_photo` but it also records `last_change`. -/
def change_photo (sigma : List String → List String) (disk : List String)
    (now : Nat) (ok : Bool) (s : History) : History × Option String :=
  let s1 := refresh_pending_list sigma disk s
  match s1.pending with
  | [] => (s1, none)
  | p :: rest =>
      let s2 := { s1 with
        shown := s1.shown ++ s1.current.toList
        pending := rest
        current := some p
        lastChange := some now }
      (if ok then { s2 with metadata := bumpDisplayed p s2.metadata } else s2, some p)

/-- `InkyPhotoFrame.previous_photo`: if `shown` is empty report nothing,
otherwise pop its tail, push the old current onto the head of `pending`,
and make the popped photo current. -/
def previous_photo (ok : Bool) (s : History) : History × Option String :=
  match s.shown.getLast? with
  | none => (s, none)
  | some prev =>
      let s1 := { s with
        shown := s.shown.dropLast
        pending := s.current.toList ++ s.pending
        current := some prev }
      (if ok then { s1 with metadata := bumpDisplayed prev s1.metadata } else s1, some prev)

/-- `InkyPhotoFrame.add_to_queue`: append the photo to `pending` unless it
is already pending, current, or shown. -/
def add_to_queue (p : String) (s : History) : History :=
  if ¬ (p ∈ s.pending) ∧ s.current ≠ some p then
    if ¬ (p ∈ s.shown) then { s with pending := s.pending ++ [p] }
    else s
  else s

/-- `InkyPhotoFrame.display_new_photo`: create metadata for the new photo
if missing, move the old current onto `shown`, make the new photo
current, and remove it from `pending` if queued there.  `now`/`sz` are the
observed timestamp and file size; `ok` is the display outcome. -/
def display_new_photo (p : String) (now sz : Nat) (ok : Bool) (s : History) : History :=
  let md :=
    if lookupMeta s.metadata p = none then s.metadata ++ [(p, ⟨now, sz, 0⟩)]
    else s.metadata
  let s1 := { s with
    metadata := md
    shown := s.shown ++ s.current.toList
    current := some p
    pending := s.pending.erase p }
  if ok then { s1 with metadata := bumpDisplayed p s1.metadata } else s1

/-- `MAX_PHOTOS = 1000`. -/
def MAX_PHOTOS : Nat := 1000

/-- One file of the photos directory as `cleanup_old_photos` observes it:
path, `st_mtime` and `st_size`. -/
structure DiskFile where
  path : String
  mtime : Nat
  size : Nat
deriving DecidableEq, Repr

/-- Stable ascending insertion by the date key, modelling the stable Python
`list.sort(key=lambda x: x[1])`. -/
def insertByDate (x : String × Nat) : List (String × Nat) → List (String × Nat)
  | [] => [x]
  | y :: ys => if y.2 ≤ x.2 then y :: insertByDate x ys else x :: y :: ys

/-- Stable ascending sort by the date key. -/
def sortByDate : List (String × Nat) → List (String × Nat)
  | [] => []
  | x :: xs => insertByDate x (sortByDate xs)

/-- One iteration of the deletion loop of `cleanup_old_photos`: skip the
photo if it is the current one, otherwise delete the file (recorded in the
second component) and remove it from `shown`, `pending` and the metadata
map. -/
def evictStep (acc : History × List String) (pd : String × Nat) :
    History × List String :=
  if acc.1.current = some pd.1 then acc
  else
    ({ acc.1 with
        shown := acc.1.shown.erase pd.1
        pending := acc.1.pending.erase pd.1
        metadata := acc.1.metadata.filter (fun kv => !(kv.1 == pd.1)) },
     acc.2 ++ [pd.1])

/-- The metadata reconciliation phase of `cleanup_old_photos`: add an
entry for every disk file not yet tracked, then drop the entries of paths
gone from disk. -/
def cleanupMeta (disk : List DiskFile) (s : History) : List (String × PhotoMeta) :=
  let md1 := disk.foldl
    (fun m d => if lookupMeta m d.path = none then m ++ [(d.path, ⟨d.mtime, d.size, 0⟩)] else m)
    s.metadata
  md1.filter (fun kv => decide (kv.1 ∈ disk.map DiskFile.path))

/-- The deletion candidates of `cleanup_old_photos`: every disk path
paired with its `added_at` date (defaulting to `now`), sorted oldest
first, cut down to the surplus above the cap. -/
def evictCandidates (maxP : Nat) (disk : List DiskFile) (now : Nat)
    (s : History) : List (String × Nat) :=
  let md2 := cleanupMeta disk s
  let photosWithDates := (disk.map DiskFile.path).map
    (fun p => (p, ((lookupMeta md2 p).map (·.addedAt)).getD now))
  (sortByDate photosWithDates).take ((disk.map DiskFile.path).length - maxP)

/-- `InkyPhotoFrame.cleanup_old_photos`, parameterised by the photo cap
(the source fixes it to `MAX_PHOTOS`): record metadata for unseen disk
files, prune metadata of files gone from disk, and, when the disk holds
more than `maxP` photos, delete the oldest surplus ones by `added_at` —
skipping the current photo — removing each deleted path from `shown`,
`pending` and the metadata.  Returns the new state and the deleted
paths.  `now` models `datetime.now()`. -/
def cleanup_old_photos (maxP : Nat) (disk : List DiskFile) (now : Nat)
    (s : History) : History × List String :=
  let s0 := { s with metadata := cleanupMeta disk s }
  if (disk.map DiskFile.path).length ≤ maxP then (s0, [])
  else (evictCandidates maxP disk now s).foldl evictStep (s0, [])

/-- The glob patterns of `get_all_photos`, as filename suffixes:
jpg, jpeg, png, gif, bmp, heic lowercase plus HEIC, JPG, JPEG, PNG, BMP
uppercase. -/
def IMAGE_GLOB_EXTS : List String :=
  [".jpg", ".jpeg", ".png", ".gif", ".bmp", ".heic", ".HEIC",
   ".JPG", ".JPEG", ".PNG", ".BMP"]

/-- Case-sensitive suffix test, the effect of a `*.<ext>` glob pattern on
a file name. -/
def hasSuffixExt (ext name : String) : Bool :=
  ext.toList.reverse.isPrefixOf name.toList.reverse

/-- `InkyPhotoFrame.get_all_photos`: for each glob pattern in order,
collect the files of the photos directory matching it.  `dirFiles` is the
directory listing. -/
def get_all_photos (dirFiles : List String) : List String :=
  (IMAGE_GLOB_EXTS.map (fun e => dirFiles.filter (fun n => hasSuffixExt e n))).flatten

/-- The on-disk history record as `json.load` hands it to `load_history`:
each top-level key may be absent (`none`). -/
structure RawHistory where
  shown : Option (List String)
  pending : Option (List String)
  current : Option (Option String)
  lastChange : Option (Option Nat)
  photoMetadata : Option (List (String × PhotoMeta))
deriving DecidableEq, Repr

/-- The zero-value record `load_history` builds when no history file
exists. -/
def zeroRawHistory : RawHistory :=
  { shown := some [], pending := some [], current := some none,
    lastChange := some none, photoMetadata := some [] }

/-- `InkyPhotoFrame.load_history`: with no history file, return the
zero-value record.  Otherwise default a missing `photo_metadata` key to an
empty map, then evaluate the success log line, which indexes
`data["shown"]` and `data["pending"]` and raises `KeyError` when either
key is absent. -/
def load_history : Option RawHistory → Except String RawHistory
  | none => .ok zeroRawHistory
  | some d =>
      let d1 := if d.photoMetadata = none then { d with photoMetadata := some [] } else d
      match d1.shown, d1.pending with
      | none, _ => .error "KeyError: shown"
      | some _, none => .error "KeyError: pending"
      | some _, some _ => .ok d1

/-- Substring test on character lists, the Python `in` test on strings. -/
def containsSub (needle hay : List Char) : Bool :=
  hay.tails.any (fun t => needle.isPrefixOf t)

/-- The recoverable-error classifier of `retry_on_error`: the lowercased
message contains one of `gpio`, `spi`, `pins`, `transport`, `endpoint`,
`busy`. -/
def is_recoverable (msg : String) : Bool :=
  ["gpio", "spi", "pins", "transport", "endpoint", "busy"].any
    (fun t => containsSub t.toList (msg.toList.map Char.toLower))

/-- The loop of the `retry_on_error` decorator.  `left` is the number of
attempts still allowed (including the current one), `attempt` the 1-based
attempt number, `op` the outcome of each attempt.  Returns the final
outcome (`.ok none` models the `return None` fall-through of a zero-
attempt loop), the number of attempts executed, and the list of backoff
sleeps `delay * backoff ** (attempt - 1)` performed. -/
def retryLoop {α : Type} (delay backoff : Nat) (op : Nat → Except String α) :
    Nat → Nat → Except String (Option α) × Nat × List Nat
  | 0, _ => (.ok none, 0, [])
  | left + 1, attempt =>
      match op attempt with
      | .ok v => (.ok (some v), 1, [])
      | .error e =>
          if is_recoverable e && decide (0 < left) then
            let rest := retryLoop delay backoff op left (attempt + 1)
            (rest.1, rest.2.1 + 1, delay * backoff ^ (attempt - 1) :: rest.2.2)
          else (.error e, 1, [])

/-- `retry_on_error(max_attempts, delay, backoff)` applied to an
operation: run up to `maxAttempts` attempts, sleeping with exponential
backoff between attempts whose errors the classifier deems recoverable,
and re-raising immediately otherwise. -/
def retry_on_error {α : Type} (maxAttempts delay backoff : Nat)
    (op : Nat → Except String α) : Except String (Option α) × Nat × List Nat :=
  retryLoop delay backoff op maxAttempts 1

/-- The body of `InkyPhotoFrame.display_photo`: the whole display attempt
sits in a `try` whose bare `except` swallows every exception and returns
`False`; a successful attempt returns `True`.  `sink` is the outcome of
the hardware interaction on each attempt. -/
def display_photo_body (sink : Nat → Except String Unit) (attempt : Nat) :
    Except String Bool :=
  match sink attempt with
  | .ok _ => .ok true
  | .error _ => .ok false

/-- `InkyPhotoFrame.display_photo`: the body above wrapped in
`@retry_on_error(max_attempts=3, delay=1, backoff=2)`. -/
def display_photo (sink : Nat → Except String Unit) :
    Except String (Option Bool) × Nat × List Nat :=
  retry_on_error 3 1 2 (display_photo_body sink)

/-- Width and height of an image. -/
structure ImgDims where
  w : Nat
  h : Nat
deriving DecidableEq, Repr

/-- The smart-crop step of `process_image`: if the image is
proportionally wider than the display (`img_ratio > display_ratio`,
i.e. `w * H > W * h`), crop to width `int(h * W / H)` keeping the full
height; otherwise crop to height `int(w * H / W)` keeping the full
width.  `int` truncates, which on these non-negative quantities is the
floor, i.e. `Nat` division. -/
def smartCrop (d : ImgDims) (W H : Nat) : ImgDims :=
  if d.w * H > W * d.h then ⟨d.h * W / H, d.h⟩ else ⟨d.w, d.w * H / W⟩

/-- The crop offsets of `process_image`: the wider-image branch centres
horizontally at `left = (w - new_width) // 2`; the taller branch is
biased towards the top with `top = (h - new_height) // 3`. -/
def cropOffset (d : ImgDims) (W H : Nat) : Nat × Nat :=
  if d.w * H > W * d.h then ((d.w - d.h * W / H) / 2, 0)
  else (0, (d.h - d.w * H / W) / 3)

/-- The final resize of `process_image`: `img.resize((W, H), LANCZOS)`
yields exactly the display dimensions. -/
def resizeTo (W H : Nat) (_d : ImgDims) : ImgDims := ⟨W, H⟩

/-- The geometric effect of `process_image` on the image dimensions:
smart crop, then resize to the display size. -/
def process_image_dims (d : ImgDims) (W H : Nat) : ImgDims :=
  resizeTo W H (smartCrop d W H)

/-- An 8-bit RGB pixel. -/
abbrev RGB := Nat × Nat × Nat

/-- A signed RGB value, as carried around by error diffusion. -/
abbrev Int3 := Int × Int × Int

/-- The calibrated Spectra 6-colour palette `SPECTRA_PALETTE`: black,
white, red `#a02020`, yellow `#f0e050`, green `#608050`, blue
`#5080b8`. -/
def SPECTRA_PALETTE : List RGB :=
  [(0x00, 0x00, 0x00), (0xff, 0xff, 0xff), (0xa0, 0x20, 0x20),
   (0xf0, 0xe0, 0x50), (0x60, 0x80, 0x50), (0x50, 0x80, 0xb8)]

/-- The palette image built by `_apply_spectra_palette`: the six
calibrated colours padded with black entries up to the 256 colours PIL
requires. -/
def palette256 : List RGB := SPECTRA_PALETTE ++ List.replicate 250 (0, 0, 0)

/-- Signed view of a pixel. -/
def toI (c : RGB) : Int3 := ((c.1 : Int), (c.2.1 : Int), (c.2.2 : Int))

/-- Componentwise addition. -/
def addI (a b : Int3) : Int3 := (a.1 + b.1, a.2.1 + b.2.1, a.2.2 + b.2.2)

/-- Componentwise subtraction. -/
def subI (a b : Int3) : Int3 := (a.1 - b.1, a.2.1 - b.2.1, a.2.2 - b.2.2)

/-- Squared distance between a working value and a palette colour. -/
def sqDist (a b : Int3) : Int :=
  (a.1 - b.1) ^ 2 + (a.2.1 - b.2.1) ^ 2 + (a.2.2 - b.2.2) ^ 2

/-- The Floyd–Steinberg weight `k/16` applied to an error value. -/
def scaleErr (k : Int) (e : Int3) : Int3 :=
  (k * e.1 / 16, k * e.2.1 / 16, k * e.2.2 / 16)

/-- Scan of the palette keeping the so-far-nearest colour and its
distance. -/
def nearestGo (v : Int3) : List RGB → RGB → Int → RGB
  | [], best, _ => best
  | c :: cs, best, bestd =>
      if sqDist v (toI c) < bestd then nearestGo v cs c (sqDist v (toI c))
      else nearestGo v cs best bestd

/-- Nearest entry of the 256-colour palette image to a working value
(first entry on ties), as the quantizer maps each dithered value. -/
def nearestColor (v : Int3) : RGB :=
  nearestGo v palette256 (0, 0, 0) (sqDist v (toI (0, 0, 0)))

/-- One row of Floyd–Steinberg dithering: each pixel is offset by the
error diffused from the row above (`incoming`) and from its left
neighbour (`carry`, weight 7/16), snapped to the nearest palette colour,
and the fresh quantization errors are collected for the next row. -/
def fsRow : List RGB → List Int3 → Int3 → List RGB × List Int3
  | [], _, _ => ([], [])
  | p :: ps, incoming, carry =>
      let v := addI (addI (toI p) (incoming.headD (0, 0, 0))) carry
      let c := nearestColor v
      let err := subI v (toI c)
      let rest := fsRow ps incoming.tail (scaleErr 7 err)
      (c :: rest.1, err :: rest.2)

/-- The error each next-row pixel receives: 5/16 from the pixel above,
3/16 from its upper-right neighbour, 1/16 from its upper-left one. -/
def nextRowErrs (errs : List Int3) : List Int3 :=
  (List.range errs.length).map (fun x =>
    addI (addI (scaleErr 5 (errs.getD x (0, 0, 0)))
               (scaleErr 3 (errs.getD (x + 1) (0, 0, 0))))
         (scaleErr 1 (if x = 0 then (0, 0, 0) else errs.getD (x - 1) (0, 0, 0))))

/-- Floyd–Steinberg quantization of a whole image to the padded palette,
the `img.quantize(palette=palette_img, dither=FLOYDSTEINBERG)` step. -/
def quantizeFS : List (List RGB) → List Int3 → List (List RGB)
  | [], _ => []
  | row :: rows, incoming =>
      let r := fsRow row incoming (0, 0, 0)
      r.1 :: quantizeFS rows (nextRowErrs r.2)

/-- ITU-R 601-2 luma, the PIL grayscale conversion. -/
def lum (p : RGB) : Nat := (299 * p.1 + 587 * p.2.1 + 114 * p.2.2) / 1000

/-- Clamp a signed channel value back to 8 bits. -/
def clamp255 (z : Int) : Nat := (max 0 (min 255 z)).toNat

/-- The mean-luminance gray level `ImageEnhance.Contrast` interpolates
against: the rounded mean of the grayscale image (the floor of the mean
plus one half, written over the integers). -/
def contrastMean (img : List (List RGB)) : Int :=
  let px := img.flatten
  if px.length = 0 then 0
  else ((2 * (px.map lum).sum + px.length) / (2 * px.length) : Nat)

/-- `ImageEnhance.Contrast(img).enhance(1.2)`: extrapolate each channel
away from the mean gray level by the factor 6/5, clamped to 8 bits. -/
def enhanceContrast (img : List (List RGB)) : List (List RGB) :=
  let m := contrastMean img
  img.map (List.map (fun p =>
    (clamp255 (m + 6 * ((p.1 : Int) - m) / 5),
     clamp255 (m + 6 * ((p.2.1 : Int) - m) / 5),
     clamp255 (m + 6 * ((p.2.2 : Int) - m) / 5))))

/-- `ImageEnhance.Color(img).enhance(1.3)`: extrapolate each pixel away
from its own gray value by the factor 13/10, clamped to 8 bits. -/
def enhanceColor (img : List (List RGB)) : List (List RGB) :=
  img.map (List.map (fun p =>
    let l := (lum p : Int)
    (clamp255 (l + 13 * ((p.1 : Int) - l) / 10),
     clamp255 (l + 13 * ((p.2.1 : Int) - l) / 10),
     clamp255 (l + 13 * ((p.2.2 : Int) - l) / 10))))

/-- `InkyPhotoFrame._apply_spectra_palette`: boost contrast by 20% and
saturation by 30%, then quantize to the padded calibrated palette with
Floyd–Steinberg dithering (the conversion back to RGB is the identity on
the pixel values). -/
def apply_spectra_palette (img : List (List RGB)) : List (List RGB) :=
  quantizeFS (enhanceColor (enhanceContrast img)) []



/-! ## Theorems -/

/-- C3: Retry policy of `display_photo`.  The claim is contradicted by
the code: the body of `display_photo` catches every exception and returns
`False`, so the `retry_on_error` wrapper never observes an error and
never retries.  At the failing input — a display sink that raises the
transient error `spi busy` on every attempt — the bare decorator would
perform 3 attempts with backoff sleeps of 1 and 2 seconds, but
`display_photo` performs exactly one attempt, sleeps never, and returns
`False`. -/
theorem C3_display_photo_never_retries :
    is_recoverable "spi busy" = true ∧
    retry_on_error 3 1 2 (fun _ => (Except.error "spi busy" : Except String Bool)) =
      (Except.error "spi busy", 3, [1, 2]) ∧
    display_photo (fun _ => Except.error "spi busy") =
      (Except.ok (some false), 1, []) := by
  refine ⟨by decide, rfl, rfl⟩

/-- C6 counterexample: the crop width is computed with truncating `int`,
not `round`.  For a 200 × 100 image on the 800 × 480 display (a wider
image, since 200 * 480 > 800 * 100), the code crops to width
`int(100 * 800 / 480) = 166` while the claimed formula
`round(height * targetRatio)` gives 167. -/
theorem C6_counterexample :
    200 * 480 > 800 * 100 ∧
    smartCrop ⟨200, 100⟩ 800 480 = ⟨166, 100⟩ ∧
    round ((100 * 800 : ℚ) / 480) = 167 := by
  refine ⟨by decide, by decide, ?_⟩
  norm_num [round_eq]

/-- C6 (amended): geometry normalization.  For every image with positive
height (and positive display dimensions), `process_image` returns exactly
the display dimensions; the image counts as wider exactly when its ratio
exceeds the display ratio, in which case the crop keeps the full height
with width `int(h * W / H)` (floor, not round) at a horizontally centred
offset; otherwise it keeps the full width with height `int(w * H / W)`
(floor) at the top-third offset. -/
theorem C6_geometry (d : ImgDims) (W H : Nat)
    (hh : 0 < d.h) (hW : 0 < W) (hH : 0 < H) :
    process_image_dims d W H = ⟨W, H⟩ ∧
    ((W : ℚ) / H < (d.w : ℚ) / d.h ↔ W * d.h < d.w * H) ∧
    (W * d.h < d.w * H →
      smartCrop d W H = ⟨d.h * W / H, d.h⟩ ∧
      Nat.floor ((d.h : ℚ) * W / H) = d.h * W / H ∧
      cropOffset d W H = ((d.w - d.h * W / H) / 2, 0)) ∧
    (¬ W * d.h < d.w * H →
      smartCrop d W H = ⟨d.w, d.w * H / W⟩ ∧
      Nat.floor ((d.w : ℚ) * H / W) = d.w * H / W ∧
      cropOffset d W H = (0, (d.h - d.w * H / W) / 3)) := by
  refine ⟨rfl, ?_, fun h => ⟨?_, ?_, ?_⟩, fun h => ⟨?_, ?_, ?_⟩⟩
  · rw [div_lt_div_iff₀ (by exact_mod_cast hH) (by exact_mod_cast hh)]
    norm_cast
  · simp [smartCrop, h]
  · have hc : ((d.h : ℚ) * W) = ((d.h * W : Nat) : ℚ) := by push_cast; ring
    rw [hc, Nat.floor_div_nat, Nat.floor_natCast]
  · simp [cropOffset, h]
  · simp [smartCrop, h]
  · have hc : ((d.w : ℚ) * H) = ((d.w * H : Nat) : ℚ) := by push_cast; ring
    rw [hc, Nat.floor_div_nat, Nat.floor_natCast]
  · simp [cropOffset, h]

/-- Witness for C6 at the 200 × 100 input on the 800 × 480 display. -/
theorem C6_geometry_witness :
    process_image_dims ⟨200, 100⟩ 800 480 = ⟨800, 480⟩ ∧
    cropOffset ⟨200, 100⟩ 800 480 = (17, 0) := by
  have T := C6_geometry ⟨200, 100⟩ 800 480 (by decide) (by decide) (by decide)
  exact ⟨T.1, (T.2.2.1 (by decide)).2.2⟩

/-- C8 counterexample: `get_all_photos` is not case-insensitive.  The
file `photo.GIF` has extension `gif` up to letter case, yet it matches
none of the eleven glob patterns, so the listing omits it. -/
theorem C8_counterexample :
    get_all_photos ["photo.GIF"] = [] ∧
    "photo.GIF".toList.map Char.toLower = "photo.gif".toList ∧
    hasSuffixExt ".gif" "photo.gif" = true := by
  refine ⟨by decide, by decide, by decide⟩

/-- C8 (amended): `get_all_photos` returns exactly the files of the
watched directory whose name ends in one of the eleven literal glob
suffixes (the six lowercase extensions plus uppercase HEIC, JPG, JPEG,
PNG and BMP; uppercase GIF and mixed-case spellings are excluded). -/
theorem C8_extension_filter (files : List String) (name : String) :
    name ∈ get_all_photos files ↔
      name ∈ files ∧ ∃ e ∈ IMAGE_GLOB_EXTS, hasSuffixExt e name = true := by
  simp only [get_all_photos, List.mem_flatten, List.mem_map]
  constructor
  · rintro ⟨l, ⟨e, he, rfl⟩, hn⟩
    have h := List.mem_filter.1 hn
    exact ⟨h.1, e, he, h.2⟩
  · rintro ⟨hf, e, he, hs⟩
    exact ⟨_, ⟨e, he, rfl⟩, List.mem_filter.2 ⟨hf, hs⟩⟩

/-- Witness for C8: a lowercase jpg file is listed. -/
theorem C8_extension_filter_witness : "x.jpg" ∈ get_all_photos ["x.jpg"] :=
  (C8_extension_filter ["x.jpg"] "x.jpg").mpr ⟨by decide, ".jpg", by decide, by decide⟩

/-- C9 counterexample: `load_history` is not tolerant of every missing
substructure.  A persisted record lacking the `shown` key (here with
`pending`, `current`, `last_change` and `photo_metadata` all present)
raises `KeyError` when the load indexes the record for its success log
line, so the load fails. -/
theorem C9_counterexample :
    load_history (some ⟨none, some [], some none, some none, some []⟩) =
      Except.error "KeyError: shown" := rfl

/-- C9 (amended): `load_history` returns the zero-value state on a wholly
absent store, and on a record carrying `shown` and `pending` it succeeds,
defaulting a missing `photo_metadata` key to the empty map; a record
missing `shown` or `pending` instead fails with `KeyError`. -/
theorem C9_load_history_tolerance (d : RawHistory) (sh pe : List String)
    (h1 : d.shown = some sh) (h2 : d.pending = some pe) :
    load_history none = Except.ok zeroRawHistory ∧
    load_history (some d) =
      Except.ok { d with photoMetadata := some (d.photoMetadata.getD []) } := by
  refine ⟨rfl, ?_⟩
  obtain ⟨s0, p0, c0, l0, m0⟩ := d
  simp only at h1 h2
  subst h1
  subst h2
  cases m0 <;> rfl

/-- Witness for C9: a record missing only `photo_metadata` loads with the
metadata defaulted to the empty map. -/
theorem C9_load_history_tolerance_witness :
    load_history (some ⟨some ["a"], some [], some none, some none, none⟩) =
      Except.ok ⟨some ["a"], some [], some none, some none, some []⟩ :=
  (C9_load_history_tolerance ⟨some ["a"], some [], some none, some none, none⟩
    ["a"] [] rfl rfl).2

/-- `refresh_pending_list` never changes the current photo. -/
theorem refresh_current_eq (sigma : List String → List String)
    (disk : List String) (s : History) :
    (refresh_pending_list sigma disk s).current = s.current := by
  simp only [refresh_pending_list]
  split <;> split <;> rfl

/-- When photos remain pending after removal and addition,
`refresh_pending_list` performs no refill: the state keeps the filtered
`shown` and the extended `pending`. -/
theorem refresh_no_reset (sigma : List String → List String)
    (disk : List String) (s : History) (h : pendingAfterAdd disk s ≠ []) :
    refresh_pending_list sigma disk s =
      { s with shown := keptShown disk s, pending := pendingAfterAdd disk s } := by
  have h1 : (pendingAfterAdd disk s).isEmpty = false := List.isEmpty_eq_false.2 h
  simp only [refresh_pending_list, h1]
  simp
  intro ha hb
  exact absurd ha h

/-- The exhaustion reset of `refresh_pending_list`: with nothing pending
but photos in the filtered `shown`, the new `pending` is the shuffle of
that `shown` and `shown` is cleared. -/
theorem refresh_reset (sigma : List String → List String)
    (disk : List String) (s : History) (hs : ∀ l : List String, (sigma l).Perm l)
    (h : pendingAfterAdd disk s = []) (h2 : keptShown disk s ≠ []) :
    refresh_pending_list sigma disk s =
      { s with shown := [], pending := sigma (keptShown disk s) } := by
  have h1 : (pendingAfterAdd disk s).isEmpty = true := by simp [h]
  have h3 : (keptShown disk s).isEmpty = false := List.isEmpty_eq_false.2 h2
  have h4 : (sigma (keptShown disk s)).isEmpty = false := by
    refine List.isEmpty_eq_false.2 fun hn => h2 ?_
    have hperm : List.Perm (keptShown disk s) (sigma (keptShown disk s)) := (hs _).symm
    rw [hn] at hperm
    exact hperm.eq_nil
  simp only [refresh_pending_list, h1, h3, h4]
  simp
  intro hn
  exact absurd hn (List.isEmpty_eq_false.1 h4)

/-- The first-run seeding of `refresh_pending_list`: with nothing pending
and nothing shown after the filters, `pending` becomes a shuffle of the
whole disk listing. -/
theorem refresh_seed (sigma : List String → List String)
    (disk : List String) (s : History)
    (h : pendingAfterAdd disk s = []) (h2 : keptShown disk s = []) :
    refresh_pending_list sigma disk s =
      { s with shown := [], pending := sigma disk } := by
  unfold refresh_pending_list
  have h1 : (pendingAfterAdd disk s).isEmpty = true := by simp [h]
  have h3 : (keptShown disk s).isEmpty = true := by simp [h2]
  simp [h1, h3, h, h2]

/-- C5: cycle reset.  `refresh_pending_list` leaves `current` untouched;
it refills `pending` from `shown` only when, after the removal and
addition phases, `pending` is empty while the filtered `shown` is not;
and in that case `pending` becomes a permutation (shuffled copy) of the
filtered `shown`, `shown` is cleared, and the current photo — never part
of the reset pool — does not enter `pending`. -/
theorem C5_cycle_reset (sigma : List String → List String)
    (disk : List String) (s : History)
    (hs : ∀ l : List String, (sigma l).Perm l) :
    (refresh_pending_list sigma disk s).current = s.current ∧
    (pendingAfterAdd disk s ≠ [] →
      refresh_pending_list sigma disk s =
        { s with shown := keptShown disk s, pending := pendingAfterAdd disk s }) ∧
    (pendingAfterAdd disk s = [] → keptShown disk s ≠ [] →
      (refresh_pending_list sigma disk s).shown = [] ∧
      ((refresh_pending_list sigma disk s).pending).Perm (keptShown disk s) ∧
      ∀ c, s.current = some c → c ∉ s.shown →
        c ∉ (refresh_pending_list sigma disk s).pending) := by
  refine ⟨refresh_current_eq sigma disk s,
    fun h => refresh_no_reset sigma disk s h, fun h1 h2 => ?_⟩
  rw [refresh_reset sigma disk s hs h1 h2]
  refine ⟨rfl, hs _, ?_⟩
  intro c _ hcs hmem
  have hck : c ∈ keptShown disk s := (hs _).mem_iff.mp hmem
  exact hcs (List.mem_filter.1 hck).1

/-- Witness for C5 at the specification scenario: `pending = []`,
`shown = [x, y]`, `current = z`, unchanged disk. -/
theorem C5_cycle_reset_witness :
    (refresh_pending_list id ["x", "y", "z"] ⟨["x", "y"], [], some "z", none, []⟩).shown
        = [] ∧
    ((refresh_pending_list id ["x", "y", "z"] ⟨["x", "y"], [], some "z", none, []⟩).pending).Perm
        (keptShown ["x", "y", "z"] ⟨["x", "y"], [], some "z", none, []⟩) ∧
    "z" ∉ (refresh_pending_list id ["x", "y", "z"]
        ⟨["x", "y"], [], some "z", none, []⟩).pending ∧
    (refresh_pending_list id ["x", "y", "z"]
        ⟨["x", "y"], [], some "z", none, []⟩).current = some "z" := by
  have T := C5_cycle_reset id ["x", "y", "z"] ⟨["x", "y"], [], some "z", none, []⟩
    (fun l => List.Perm.refl l)
  have R := T.2.2 (by decide) (by decide)
  exact ⟨R.1, R.2.1, R.2.2 "z" rfl (by decide), T.1⟩

/-- A metadata lookup succeeds exactly when some entry carries the key. -/
theorem lookupMeta_ne_none_iff (m : List (String × PhotoMeta)) (c : String) :
    lookupMeta m c ≠ none ↔ ∃ kv ∈ m, kv.1 = c := by
  rw [lookupMeta, Ne, Option.map_eq_none', ← Ne, Option.ne_none_iff_isSome,
    List.find?_isSome]
  simp [beq_iff_eq]

/-- The metadata-insertion fold of `cleanup_old_photos` ends up holding a
key for every disk path, and keeps every key it started with. -/
theorem mdInsert_has (disk : List DiskFile) :
    ∀ (m : List (String × PhotoMeta)) (c : String),
      (c ∈ disk.map DiskFile.path ∨ lookupMeta m c ≠ none) →
      lookupMeta
        (disk.foldl
          (fun m d =>
            if lookupMeta m d.path = none then m ++ [(d.path, ⟨d.mtime, d.size, 0⟩)]
            else m)
          m) c ≠ none := by
  induction disk with
  | nil =>
      intro m c h
      rcases h with h | h
      · simp at h
      · simpa using h
  | cons d rest ih =>
      intro m c h
      simp only [List.foldl_cons]
      apply ih
      rcases h with h | h
      · rcases (by simpa using h : c = d.path ∨ ∃ a ∈ rest, a.path = c) with rfl | ⟨a, ha, hap⟩
        · right
          by_cases hd : lookupMeta m d.path = none
          · rw [if_pos hd, lookupMeta_ne_none_iff]
            exact ⟨(d.path, ⟨d.mtime, d.size, 0⟩), by simp⟩
          · rw [if_neg hd]
            exact hd
        · left
          simp only [List.mem_map]
          exact ⟨a, ha, hap⟩
      · right
        rw [lookupMeta_ne_none_iff] at h
        obtain ⟨kv, hkv, hk⟩ := h
        split <;> rw [lookupMeta_ne_none_iff]
        · exact ⟨kv, List.mem_append_left _ hkv, hk⟩
        · exact ⟨kv, hkv, hk⟩

/-- After the metadata reconciliation phase of `cleanup_old_photos`,
every disk path has a metadata entry. -/
theorem cleanupMeta_has (disk : List DiskFile) (s : History) (c : String)
    (h : c ∈ disk.map DiskFile.path) :
    lookupMeta (cleanupMeta disk s) c ≠ none := by
  rw [cleanupMeta, lookupMeta_ne_none_iff]
  have h1 := mdInsert_has disk s.metadata c (Or.inl h)
  rw [lookupMeta_ne_none_iff] at h1
  obtain ⟨kv, hkv, hk⟩ := h1
  exact ⟨kv, List.mem_filter.2 ⟨hkv, by simp [hk, h]⟩, hk⟩

/-- The deletion loop of `cleanup_old_photos` never touches the current
photo: its membership in `shown`, `pending`, the metadata and its absence
from the deleted list are all preserved by the fold. -/
theorem evictFold_safety (c : String) :
    ∀ (l : List (String × Nat)) (acc : History × List String),
      acc.1.current = some c →
      (l.foldl evictStep acc).1.current = some c ∧
      (c ∉ acc.2 → c ∉ (l.foldl evictStep acc).2) ∧
      (c ∈ acc.1.shown → c ∈ (l.foldl evictStep acc).1.shown) ∧
      (c ∈ acc.1.pending → c ∈ (l.foldl evictStep acc).1.pending) ∧
      (lookupMeta acc.1.metadata c ≠ none →
        lookupMeta (l.foldl evictStep acc).1.metadata c ≠ none) := by
  intro l
  induction l with
  | nil => intro acc h; exact ⟨h, fun x => x, fun x => x, fun x => x, fun x => x⟩
  | cons pd rest ih =>
      intro acc h
      simp only [List.foldl_cons]
      by_cases hcur : acc.1.current = some pd.1
      · have hstep : evictStep acc pd = acc := by rw [evictStep, if_pos hcur]
        rw [hstep]
        exact ih acc h
      · have hne : c ≠ pd.1 := by
          intro heq
          exact hcur (heq ▸ h)
        have hstep : evictStep acc pd =
            ({ acc.1 with
                shown := acc.1.shown.erase pd.1
                pending := acc.1.pending.erase pd.1
                metadata := acc.1.metadata.filter (fun kv => !(kv.1 == pd.1)) },
             acc.2 ++ [pd.1]) := by rw [evictStep, if_neg hcur]
        rw [hstep]
        have IH := ih
          (({ acc.1 with
              shown := acc.1.shown.erase pd.1
              pending := acc.1.pending.erase pd.1
              metadata := acc.1.metadata.filter (fun kv => !(kv.1 == pd.1)) },
            acc.2 ++ [pd.1]) : History × List String) h
        refine ⟨IH.1, fun hno => IH.2.1 ?_, fun hsh => IH.2.2.1 ?_,
          fun hpe => IH.2.2.2.1 ?_, fun hmd => IH.2.2.2.2 ?_⟩
        · simp [hno, hne]
        · exact (List.mem_erase_of_ne hne).2 hsh
        · exact (List.mem_erase_of_ne hne).2 hpe
        · rw [lookupMeta_ne_none_iff] at hmd ⊢
          obtain ⟨kv, hkv, hk⟩ := hmd
          exact ⟨kv, List.mem_filter.2 ⟨hkv, by simp [hk, hne]⟩, hk⟩

/-- C7: eviction safety.  For every state with a current photo and every
disk contents, `cleanup_old_photos` never deletes the current path — even
when it is chronologically oldest — and never removes it from `shown`,
`pending` or the metadata. -/
theorem C7_eviction_safety (maxP : Nat) (disk : List DiskFile) (now : Nat)
    (s : History) (c : String) (hc : s.current = some c) :
    c ∉ (cleanup_old_photos maxP disk now s).2 ∧
    (cleanup_old_photos maxP disk now s).1.current = some c ∧
    (c ∈ s.shown → c ∈ (cleanup_old_photos maxP disk now s).1.shown) ∧
    (c ∈ s.pending → c ∈ (cleanup_old_photos maxP disk now s).1.pending) ∧
    (c ∈ disk.map DiskFile.path →
      lookupMeta (cleanup_old_photos maxP disk now s).1.metadata c ≠ none) := by
  rw [cleanup_old_photos]
  split
  · exact ⟨by simp, hc, fun x => x, fun x => x, fun hd => cleanupMeta_has disk s c hd⟩
  · have H := evictFold_safety c (evictCandidates maxP disk now s)
      ({ s with metadata := cleanupMeta disk s }, []) hc
    exact ⟨H.2.1 (by simp), H.1, H.2.2.1, H.2.2.2.1,
      fun hd => H.2.2.2.2 (cleanupMeta_has disk s c hd)⟩

/-- Witness for C7: a two-photo disk with a cap of one, where the current
photo is the oldest — it is skipped, nothing else survives the cut rule,
and the current photo stays fully tracked. -/
theorem C7_eviction_safety_witness :
    "old" ∉ (cleanup_old_photos 1 [⟨"old", 1, 10⟩, ⟨"new", 2, 10⟩] 5
        ⟨[], ["new"], some "old", none, []⟩).2 ∧
    (cleanup_old_photos 1 [⟨"old", 1, 10⟩, ⟨"new", 2, 10⟩] 5
        ⟨[], ["new"], some "old", none, []⟩).1.current = some "old" ∧
    lookupMeta (cleanup_old_photos 1 [⟨"old", 1, 10⟩, ⟨"new", 2, 10⟩] 5
        ⟨[], ["new"], some "old", none, []⟩).1.metadata "old" ≠ none := by
  have H := C7_eviction_safety 1 [⟨"old", 1, 10⟩, ⟨"new", 2, 10⟩] 5
    ⟨[], ["new"], some "old", none, []⟩ "old" rfl
  exact ⟨H.1, H.2.1, H.2.2.2.2 (by decide)⟩

/-- Every entry of the padded 256-colour palette image is one of the six
calibrated colours (the padding is black, itself a palette colour). -/
theorem palette256_subset (c : RGB) (h : c ∈ palette256) : c ∈ SPECTRA_PALETTE := by
  rcases List.mem_append.1 h with h1 | h1
  · exact h1
  · rw [List.eq_of_mem_replicate h1]
    decide

/-- The palette scan only ever returns its starting colour or a scanned
colour. -/
theorem nearestGo_mem (v : Int3) (S : RGB → Prop) :
    ∀ (l : List RGB) (best : RGB) (bestd : Int),
      S best → (∀ a ∈ l, S a) → S (nearestGo v l best bestd) := by
  intro l
  induction l with
  | nil => intro best bestd h _; exact h
  | cons c cs ih =>
      intro best bestd h hall
      rw [nearestGo]
      split
      · exact ih c _ (hall c (by simp)) (fun x hx => hall x (by simp [hx]))
      · exact ih best bestd h (fun x hx => hall x (by simp [hx]))

/-- The nearest-palette-colour choice always lands in the six calibrated
colours. -/
theorem nearestColor_mem (v : Int3) : nearestColor v ∈ SPECTRA_PALETTE := by
  rw [nearestColor]
  exact nearestGo_mem v (fun c => c ∈ SPECTRA_PALETTE) palette256 (0, 0, 0) _
    (by decide) (fun a ha => palette256_subset a ha)

/-- Every pixel a dithered row outputs is one of the six calibrated
colours. -/
theorem fsRow_mem :
    ∀ (row : List RGB) (inc : List Int3) (carry : Int3),
      ∀ c ∈ (fsRow row inc carry).1, c ∈ SPECTRA_PALETTE := by
  intro row
  induction row with
  | nil => intro inc carry c hc; simp [fsRow] at hc
  | cons p ps ih =>
      intro inc carry c hc
      rw [fsRow] at hc
      rcases List.mem_cons.1 hc with rfl | hr
      · exact nearestColor_mem _
      · exact ih _ _ c hr

/-- Every pixel of a Floyd–Steinberg-quantized image is one of the six
calibrated colours. -/
theorem quantizeFS_mem :
    ∀ (rows : List (List RGB)) (inc : List Int3) (r : List RGB),
      r ∈ quantizeFS rows inc → ∀ c ∈ r, c ∈ SPECTRA_PALETTE := by
  intro rows
  induction rows with
  | nil => intro inc r hr; simp [quantizeFS] at hr
  | cons row rest ih =>
      intro inc r hr
      rw [quantizeFS] at hr
      rcases List.mem_cons.1 hr with rfl | hrr
      · exact fsRow_mem row inc (0, 0, 0)
      · exact ih _ r hrr

/-- C10: quantization closure.  Every pixel of the output of
`_apply_spectra_palette` is one of the six calibrated palette entries —
black, white, red a02020, yellow f0e050, green 608050, blue 5080b8 — for
every input image. -/
theorem C10_quantization_closure (img : List (List RGB)) (row : List RGB)
    (p : RGB) (hr : row ∈ apply_spectra_palette img) (hp : p ∈ row) :
    p ∈ SPECTRA_PALETTE :=
  quantizeFS_mem (enhanceColor (enhanceContrast img)) [] row hr p hp

set_option maxRecDepth 8000 in
set_option maxRecDepth 40000 in
/-- Witness for C10: a pure-red one-pixel image quantizes to the
calibrated red, a palette member. -/
theorem C10_quantization_closure_witness :
    ((0xa0, 0x20, 0x20) : RGB) ∈ SPECTRA_PALETTE := by
  have hval : apply_spectra_palette [[(255, 0, 0)]] = [[(160, 32, 32)]] := by decide
  exact C10_quantization_closure [[(255, 0, 0)]] [(160, 32, 32)] (160, 32, 32)
    (by rw [hval]; exact List.mem_singleton.mpr rfl) (List.mem_singleton.mpr rfl)

/-- The disjointness property of the specification over the three queue
fields: `shown` and `pending` share no path, and the current path belongs
to neither. -/
def DisjointState (sh pe : List String) (cu : Option String) : Prop :=
  (∀ x ∈ sh, x ∉ pe) ∧ ∀ c ∈ cu.toList, c ∉ sh ∧ c ∉ pe

/-- Disjointness of a history state. -/
def Disjointness (s : History) : Prop := DisjointState s.shown s.pending s.current

/-- Well-formedness of the three queue fields: duplicate-free `shown` and
`pending`, plus disjointness. -/
def WFCore (sh pe : List String) (cu : Option String) : Prop :=
  sh.Nodup ∧ pe.Nodup ∧ DisjointState sh pe cu

/-- Well-formedness of a history state. -/
def WFHistory (s : History) : Prop := WFCore s.shown s.pending s.current

/-- The state-mutating operations of the frame controller, each carrying
what it observes of the outside world (disk listing, shuffle outcome,
clock, display success). -/
inductive FrameOp where
  | opNext (sigma : List String → List String) (disk : List String) (ok : Bool)
  | opScheduled (sigma : List String → List String) (disk : List String)
      (now : Nat) (ok : Bool)
  | opPrev (ok : Bool)
  | opEnqueue (p : String)
  | opDisplayNew (p : String) (now sz : Nat) (ok : Bool)
  | opReconcile (sigma : List String → List String) (disk : List String)
  | opCleanup (maxP : Nat) (disk : List DiskFile) (now : Nat)

/-- The state reached by one frame-controller operation. -/
def applyOp : FrameOp → History → History
  | .opNext sigma disk ok, s => (next_photo sigma disk ok s).1
  | .opScheduled sigma disk now ok, s => (change_photo sigma disk now ok s).1
  | .opPrev ok, s => (previous_photo ok s).1
  | .opEnqueue p, s => add_to_queue p s
  | .opDisplayNew p now sz ok, s => display_new_photo p now sz ok s
  | .opReconcile sigma disk, s => refresh_pending_list sigma disk s
  | .opCleanup maxP disk now, s => (cleanup_old_photos maxP disk now s).1

/-- The one situation in which `refresh_pending_list` breaks
disjointness: both queues drain empty while the current photo is still
on disk, so the whole-disk reseeding puts the current photo back into
`pending`. -/
def reseedHazardB (disk : List String) (s : History) : Bool :=
  (pendingAfterAdd disk s).isEmpty && (keptShown disk s).isEmpty &&
    (match s.current with
     | some c => decide (c ∈ disk)
     | none => false)

/-- Side conditions under which each operation preserves disjointness:
shuffles permute, disk listings are duplicate-free, the reseeding hazard
is excluded for the operations that reconcile, and an immediately
displayed photo is not already shown or current. -/
def sideOK : FrameOp → History → Prop
  | .opNext sigma disk _, s =>
      (∀ l : List String, (sigma l).Perm l) ∧ disk.Nodup ∧
        reseedHazardB disk s = false
  | .opScheduled sigma disk _ _, s =>
      (∀ l : List String, (sigma l).Perm l) ∧ disk.Nodup ∧
        reseedHazardB disk s = false
  | .opPrev _, _ => True
  | .opEnqueue _, _ => True
  | .opDisplayNew p _ _ _, s => p ∉ s.shown ∧ s.current ≠ some p
  | .opReconcile sigma disk, s =>
      (∀ l : List String, (sigma l).Perm l) ∧ disk.Nodup ∧
        reseedHazardB disk s = false
  | .opCleanup _ _ _, _ => True

theorem mem_keptShown {disk : List String} {s : History} {x : String} :
    x ∈ keptShown disk s ↔ x ∈ s.shown ∧ x ∈ disk := by
  simp [keptShown]

theorem mem_keptPending {disk : List String} {s : History} {x : String} :
    x ∈ keptPending disk s ↔ x ∈ s.pending ∧ x ∈ disk := by
  simp [keptPending]

theorem mem_newFromDisk {disk : List String} {s : History} {x : String} :
    x ∈ newFromDisk disk s ↔ x ∈ disk ∧ ¬ x ∈ knownPhotos disk s := by
  simp [newFromDisk]

theorem mem_knownPhotos {disk : List String} {s : History} {x : String} :
    x ∈ knownPhotos disk s ↔
      x ∈ keptShown disk s ∨ x ∈ keptPending disk s ∨ x ∈ s.current.toList := by
  simp [knownPhotos, or_assoc]

/-- `refresh_pending_list` preserves well-formedness provided the shuffle
permutes, the disk listing is duplicate-free, and the reseeding hazard
does not arise. -/
theorem refresh_WF (sigma : List String → List String) (disk : List String)
    (s : History) (hs : ∀ l : List String, (sigma l).Perm l)
    (hd : disk.Nodup) (hz : reseedHazardB disk s = false)
    (h : WFHistory s) : WFHistory (refresh_pending_list sigma disk s) := by
  obtain ⟨hsh, hpe, hd1, hd2⟩ : s.shown.Nodup ∧ s.pending.Nodup ∧
      (∀ x ∈ s.shown, x ∉ s.pending) ∧
      ∀ c ∈ s.current.toList, c ∉ s.shown ∧ c ∉ s.pending :=
    ⟨h.1, h.2.1, h.2.2.1, h.2.2.2⟩
  have hkS : (keptShown disk s).Nodup := hsh.filter _
  have hkP : (keptPending disk s).Nodup := hpe.filter _
  have hnF : (newFromDisk disk s).Nodup := hd.filter _
  have hPA : (pendingAfterAdd disk s).Nodup := by
    refine hkP.append hnF ?_
    intro x hx hx2
    exact (mem_newFromDisk.1 hx2).2 (mem_knownPhotos.2 (Or.inr (Or.inl hx)))
  have hdisjPA : ∀ x ∈ keptShown disk s, x ∉ pendingAfterAdd disk s := by
    intro x hx hx2
    rcases List.mem_append.1 hx2 with h3 | h3
    · exact hd1 x (mem_keptShown.1 hx).1 (mem_keptPending.1 h3).1
    · exact (mem_newFromDisk.1 h3).2 (mem_knownPhotos.2 (Or.inl hx))
  have hcur : ∀ c ∈ s.current.toList,
      c ∉ keptShown disk s ∧ c ∉ pendingAfterAdd disk s := by
    intro c hc
    refine ⟨fun h3 => (hd2 c hc).1 (mem_keptShown.1 h3).1, fun h3 => ?_⟩
    rcases List.mem_append.1 h3 with h4 | h4
    · exact (hd2 c hc).2 (mem_keptPending.1 h4).1
    · exact (mem_newFromDisk.1 h4).2 (mem_knownPhotos.2 (Or.inr (Or.inr hc)))
  by_cases hA : pendingAfterAdd disk s = []
  · by_cases hB : keptShown disk s = []
    · rw [refresh_seed sigma disk s hA hB]
      refine ⟨List.nodup_nil, (hs disk).nodup_iff.2 hd, fun x hx => absurd hx (by simp),
        fun c hc => ⟨by simp, fun hmem => ?_⟩⟩
      have hcd : c ∈ disk := (hs disk).mem_iff.1 hmem
      rw [reseedHazardB] at hz
      rcases hcc : s.current with _ | c2
      · rw [hcc] at hc; simp at hc
      · rw [hcc] at hc hz
        simp only [Option.toList_some, List.mem_singleton] at hc
        subst hc
        simp [hA, hB, hcd] at hz
    · rw [refresh_reset sigma disk s hs hA hB]
      refine ⟨List.nodup_nil, (hs _).nodup_iff.2 hkS, fun x hx => absurd hx (by simp),
        fun c hc => ⟨by simp, fun hmem => (hcur c hc).1 ((hs _).mem_iff.1 hmem)⟩⟩
  · rw [refresh_no_reset sigma disk s hA]
    exact ⟨hkS, hPA, hdisjPA, hcur⟩

/-- Popping the head of `pending` onto `current` (and pushing the old
current onto `shown`) preserves well-formedness. -/
theorem popCore (sh pe : List String) (cu : Option String) (p : String)
    (rest : List String) (hpe : pe = p :: rest) (h : WFCore sh pe cu) :
    WFCore (sh ++ cu.toList) rest (some p) := by
  obtain ⟨hsh, hpen, hd1, hd2⟩ : sh.Nodup ∧ pe.Nodup ∧
      (∀ x ∈ sh, x ∉ pe) ∧ ∀ c ∈ cu.toList, c ∉ sh ∧ c ∉ pe :=
    ⟨h.1, h.2.1, h.2.2.1, h.2.2.2⟩
  subst hpe
  have hcuN : cu.toList.Nodup := by cases cu <;> simp
  refine ⟨hsh.append hcuN (fun x hx hx2 => (hd2 x hx2).1 hx),
    (List.nodup_cons.1 hpen).2, ?_, ?_⟩
  · intro x hx hx2
    rcases List.mem_append.1 hx with h3 | h3
    · exact hd1 x h3 (List.mem_cons_of_mem p hx2)
    · exact (hd2 x h3).2 (List.mem_cons_of_mem p hx2)
  · intro c hc
    simp only [Option.toList_some, List.mem_singleton] at hc
    subst hc
    refine ⟨fun h3 => ?_, (List.nodup_cons.1 hpen).1⟩
    rcases List.mem_append.1 h3 with h4 | h4
    · exact hd1 c h4 (List.mem_cons_self c rest)
    · exact (hd2 c h4).2 (List.mem_cons_self c rest)

/-- Popping the tail of `shown` onto `current` (and pushing the old
current onto the head of `pending`) preserves well-formedness. -/
theorem prevCore (sh pe : List String) (cu : Option String) (prev : String)
    (hl : sh.getLast? = some prev) (h : WFCore sh pe cu) :
    WFCore sh.dropLast (cu.toList ++ pe) (some prev) := by
  obtain ⟨hsh, hpen, hd1, hd2⟩ : sh.Nodup ∧ pe.Nodup ∧
      (∀ x ∈ sh, x ∉ pe) ∧ ∀ c ∈ cu.toList, c ∉ sh ∧ c ∉ pe :=
    ⟨h.1, h.2.1, h.2.2.1, h.2.2.2⟩
  have hdec : sh.dropLast ++ [prev] = sh :=
    List.dropLast_append_getLast? prev (Option.mem_def.2 hl)
  have hmem : ∀ x ∈ sh.dropLast, x ∈ sh := by
    intro x hx
    rw [← hdec]
    exact List.mem_append_left _ hx
  have hprev : prev ∈ sh := by
    rw [← hdec]
    exact List.mem_append_right _ (List.mem_singleton.2 rfl)
  have hsplit : sh.dropLast.Nodup ∧ prev ∉ sh.dropLast := by
    have := hdec ▸ hsh
    have h5 := List.nodup_append.1 this
    exact ⟨h5.1, fun hmem2 => h5.2.2 hmem2 (List.mem_singleton.2 rfl)⟩
  have hcuN : cu.toList.Nodup := by cases cu <;> simp
  refine ⟨hsplit.1, hcuN.append hpen (fun x hx hx2 => (hd2 x hx).2 hx2), ?_, ?_⟩
  · intro x hx hx2
    rcases List.mem_append.1 hx2 with h3 | h3
    · exact (hd2 x h3).1 (hmem x hx)
    · exact hd1 x (hmem x hx) h3
  · intro c hc
    simp only [Option.toList_some, List.mem_singleton] at hc
    subst hc
    refine ⟨hsplit.2, fun h3 => ?_⟩
    rcases List.mem_append.1 h3 with h4 | h4
    · exact (hd2 c h4).1 hprev
    · exact hd1 c hprev h4

/-- `add_to_queue` preserves well-formedness. -/
theorem add_to_queue_WF (p : String) (s : History) (h : WFHistory s) :
    WFHistory (add_to_queue p s) := by
  obtain ⟨hsh, hpen, hd1, hd2⟩ : s.shown.Nodup ∧ s.pending.Nodup ∧
      (∀ x ∈ s.shown, x ∉ s.pending) ∧
      ∀ c ∈ s.current.toList, c ∉ s.shown ∧ c ∉ s.pending :=
    ⟨h.1, h.2.1, h.2.2.1, h.2.2.2⟩
  rw [add_to_queue]
  split
  · rename_i hcond
    split
    · rename_i hshown
      refine ⟨hsh, hpen.append (by simp) ?_, ?_, ?_⟩
      · intro x hx hx2
        rw [List.mem_singleton] at hx2
        subst hx2
        exact hcond.1 hx
      · intro x hx hx2
        rcases List.mem_append.1 hx2 with h3 | h3
        · exact hd1 x hx h3
        · rw [List.mem_singleton] at h3
          subst h3
          exact hshown hx
      · intro c hc
        refine ⟨(hd2 c hc).1, fun h3 => ?_⟩
        rcases List.mem_append.1 h3 with h4 | h4
        · exact (hd2 c hc).2 h4
        · rw [List.mem_singleton] at h4
          subst h4
          apply hcond.2
          cases hcc : s.current with
          | none => rw [hcc] at hc; simp at hc
          | some c2 =>
              rw [hcc] at hc
              simp only [Option.toList_some, List.mem_singleton] at hc
              rw [hc]
    · exact h
  · exact h

/-- `display_new_photo` preserves well-formedness when the new photo is
not already shown and differs from the current one. -/
theorem display_new_photo_WF (p : String) (now sz : Nat) (ok : Bool)
    (s : History) (hp1 : p ∉ s.shown) (hp2 : s.current ≠ some p)
    (h : WFHistory s) : WFHistory (display_new_photo p now sz ok s) := by
  obtain ⟨hsh, hpen, hd1, hd2⟩ : s.shown.Nodup ∧ s.pending.Nodup ∧
      (∀ x ∈ s.shown, x ∉ s.pending) ∧
      ∀ c ∈ s.current.toList, c ∉ s.shown ∧ c ∉ s.pending :=
    ⟨h.1, h.2.1, h.2.2.1, h.2.2.2⟩
  have hcuN : s.current.toList.Nodup := by cases s.current <;> simp
  have hcore : WFCore (s.shown ++ s.current.toList) (s.pending.erase p) (some p) := by
    refine ⟨hsh.append hcuN (fun x hx hx2 => (hd2 x hx2).1 hx), hpen.erase p, ?_, ?_⟩
    · intro x hx hx2
      have hx3 := List.erase_subset _ _ hx2
      rcases List.mem_append.1 hx with h3 | h3
      · exact hd1 x h3 hx3
      · exact (hd2 x h3).2 hx3
    · intro c hc
      simp only [Option.toList_some, List.mem_singleton] at hc
      subst hc
      refine ⟨fun h3 => ?_, fun h3 => hpen.not_mem_erase h3⟩
      rcases List.mem_append.1 h3 with h4 | h4
      · exact hp1 h4
      · apply hp2
        cases hcc : s.current with
        | none => rw [hcc] at h4; simp at h4
        | some c2 =>
            rw [hcc] at h4
            simp only [Option.toList_some, List.mem_singleton] at h4
            rw [h4]
  rw [display_new_photo]
  cases ok <;> simp only [Bool.false_eq_true, if_neg, if_pos, ite_true, ite_false] <;>
    exact hcore

/-- One pass of the deletion loop of `cleanup_old_photos` preserves
well-formedness (it only erases paths). -/
theorem evictFold_WF :
    ∀ (l : List (String × Nat)) (acc : History × List String),
      WFHistory acc.1 → WFHistory ((l.foldl evictStep acc).1) := by
  intro l
  induction l with
  | nil => intro acc h; exact h
  | cons pd rest ih =>
      intro acc h
      simp only [List.foldl_cons]
      apply ih
      rw [evictStep]
      split
      · exact h
      · obtain ⟨hsh, hpen, hd1, hd2⟩ : acc.1.shown.Nodup ∧ acc.1.pending.Nodup ∧
            (∀ x ∈ acc.1.shown, x ∉ acc.1.pending) ∧
            ∀ c ∈ acc.1.current.toList, c ∉ acc.1.shown ∧ c ∉ acc.1.pending :=
          ⟨h.1, h.2.1, h.2.2.1, h.2.2.2⟩
        show WFCore (acc.1.shown.erase pd.1) (acc.1.pending.erase pd.1) acc.1.current
        refine ⟨hsh.erase _, hpen.erase _, ?_, ?_⟩
        · intro x hx hx2
          exact hd1 x (List.erase_subset _ _ hx) (List.erase_subset _ _ hx2)
        · intro c hc
          exact ⟨fun h3 => (hd2 c hc).1 (List.erase_subset _ _ h3),
            fun h3 => (hd2 c hc).2 (List.erase_subset _ _ h3)⟩

/-- `cleanup_old_photos` preserves well-formedness. -/
theorem cleanup_WF (maxP : Nat) (disk : List DiskFile) (now : Nat)
    (s : History) (h : WFHistory s) :
    WFHistory ((cleanup_old_photos maxP disk now s).1) := by
  rw [cleanup_old_photos]
  split
  · exact h
  · exact evictFold_WF _ ({ s with metadata := cleanupMeta disk s }, []) h

/-- C2 (amended): preservation of disjointness.  Every state-mutating
operation applied to a well-formed state (duplicate-free queues plus
disjointness) yields a well-formed state, provided: the shuffle permutes
and the disk listing is duplicate-free, the operations that reconcile do
not hit the whole-disk reseeding while the current photo is still on
disk (the reseeding would put the current photo into `pending`), and an
immediately displayed photo is not already shown or current. -/
theorem C2_disjointness (op : FrameOp) (s : History)
    (h : WFHistory s) (hok : sideOK op s) : WFHistory (applyOp op s) := by
  cases op with
  | opNext sigma disk ok =>
      obtain ⟨hs, hd, hz⟩ := hok
      have h1 := refresh_WF sigma disk s hs hd hz h
      rcases hp : (refresh_pending_list sigma disk s).pending with _ | ⟨p, rest⟩
      · simp only [applyOp, next_photo, hp]
        exact h1
      · simp only [applyOp, next_photo, hp]
        cases ok <;> simp only [ite_true, ite_false, Bool.false_eq_true, if_neg, if_pos] <;>
          exact popCore _ _ _ p rest hp h1
  | opScheduled sigma disk now ok =>
      obtain ⟨hs, hd, hz⟩ := hok
      have h1 := refresh_WF sigma disk s hs hd hz h
      rcases hp : (refresh_pending_list sigma disk s).pending with _ | ⟨p, rest⟩
      · simp only [applyOp, change_photo, hp]
        exact h1
      · simp only [applyOp, change_photo, hp]
        cases ok <;> simp only [ite_true, ite_false, Bool.false_eq_true, if_neg, if_pos] <;>
          exact popCore _ _ _ p rest hp h1
  | opPrev ok =>
      rcases hl : s.shown.getLast? with _ | prev
      · simp only [applyOp, previous_photo, hl]
        exact h
      · simp only [applyOp, previous_photo, hl]
        cases ok <;> simp only [ite_true, ite_false, Bool.false_eq_true, if_neg, if_pos] <;>
          exact prevCore _ _ _ prev hl h
  | opEnqueue p => exact add_to_queue_WF p s h
  | opDisplayNew p now sz ok => exact display_new_photo_WF p now sz ok s hok.1 hok.2 h
  | opReconcile sigma disk => exact refresh_WF sigma disk s hok.1 hok.2.1 hok.2.2 h
  | opCleanup maxP disk now => exact cleanup_WF maxP disk now s h

/-- C2 counterexample: the claim fails as stated.  From the disjoint
state with empty queues and current photo `a` still on disk, one
reconcile (over the unchanged one-photo disk) reseeds `pending` with the
whole disk listing, placing the current photo into `pending`. -/
theorem C2_counterexample :
    Disjointness (⟨[], [], some "a", none, []⟩ : History) ∧
    ¬ Disjointness
        (applyOp (FrameOp.opReconcile id ["a"]) ⟨[], [], some "a", none, []⟩) := by
  constructor
  · exact ⟨by simp, by simp⟩
  · intro hcon
    have h1 : "a" ∈ (applyOp (FrameOp.opReconcile id ["a"])
        (⟨[], [], some "a", none, []⟩ : History)).pending := by decide
    have h2 := hcon.2 "a" (by decide)
    exact h2.2 h1

/-- Witness for C2: a forward advance from the fresh state over a
one-photo disk lands in a well-formed state. -/
theorem C2_disjointness_witness :
    WFHistory (applyOp (FrameOp.opNext id ["a"] true) freshHistory) :=
  C2_disjointness (FrameOp.opNext id ["a"] true) freshHistory
    ⟨List.nodup_nil, List.nodup_nil, fun x hx => absurd hx (List.not_mem_nil x),
      fun c hc => absurd hc (List.not_mem_nil c)⟩
    ⟨fun l => List.Perm.refl l, by decide, by decide⟩

/-- C4 counterexample: the claim fails as stated for states with no
current photo.  With `pending = [a]`, empty `shown` and no current,
advancing forward makes `a` current; advancing backward then finds
`shown` empty and reports no previous photo, leaving `a` current instead
of restoring the prior (absent) current. -/
theorem C4_counterexample :
    ((⟨[], ["a"], none, none, []⟩ : History).pending ≠ []) ∧
    (previous_photo true
        (next_photo id ["a"] true ⟨[], ["a"], none, none, []⟩).1).1.current ≠
      (⟨[], ["a"], none, none, []⟩ : History).current := by
  refine ⟨by decide, by decide⟩

/-- C4 (amended): reversibility.  For every state with non-empty
`pending` and a present current photo, on which the forward step's
internal reconcile is a no-op, advancing backward immediately after
advancing forward returns the popped photo to the head of `pending` and
restores the prior `shown`, `pending` and `current` exactly. -/
theorem C4_reversibility (sigma : List String → List String)
    (disk : List String) (ok1 ok2 : Bool) (s : History) (c p : String)
    (rest : List String) (hc : s.current = some c) (hp : s.pending = p :: rest)
    (hrefresh : refresh_pending_list sigma disk s = s) :
    (next_photo sigma disk ok1 s).2 = some p ∧
    (previous_photo ok2 (next_photo sigma disk ok1 s).1).2 = some c ∧
    (previous_photo ok2 (next_photo sigma disk ok1 s).1).1.shown = s.shown ∧
    (previous_photo ok2 (next_photo sigma disk ok1 s).1).1.pending = s.pending ∧
    (previous_photo ok2 (next_photo sigma disk ok1 s).1).1.current = s.current := by
  cases ok1 <;> cases ok2 <;>
    simp [next_photo, hrefresh, hp, hc, previous_photo,
      List.getLast?_concat, List.dropLast_concat]

/-- Witness for C4 at a three-photo state whose tracked photos match the
disk. -/
theorem C4_reversibility_witness :
    (next_photo id ["a", "b", "c"] true ⟨["b"], ["a"], some "c", none, []⟩).2
        = some "a" ∧
    (previous_photo true (next_photo id ["a", "b", "c"] true
        ⟨["b"], ["a"], some "c", none, []⟩).1).2 = some "c" ∧
    (previous_photo true (next_photo id ["a", "b", "c"] true
        ⟨["b"], ["a"], some "c", none, []⟩).1).1.shown = ["b"] ∧
    (previous_photo true (next_photo id ["a", "b", "c"] true
        ⟨["b"], ["a"], some "c", none, []⟩).1).1.pending = ["a"] ∧
    (previous_photo true (next_photo id ["a", "b", "c"] true
        ⟨["b"], ["a"], some "c", none, []⟩).1).1.current = some "c" :=
  C4_reversibility id ["a", "b", "c"] true true ⟨["b"], ["a"], some "c", none, []⟩
    "c" "a" [] rfl rfl (by decide)

/-- The rotation-only operations of the fairness property: a standalone
reconcile, a button advance (`next_photo`) or the scheduled daily change
(`change_photo`), each with its own shuffle outcome. -/
inductive RotOp where
  | reconcile (sigma : List String → List String)
  | advance (sigma : List String → List String) (ok : Bool)
  | scheduled (sigma : List String → List String) (now : Nat) (ok : Bool)

/-- One rotation operation over a fixed disk: the state it reaches and
the photo it returned as current, if any. -/
def rotStep (disk : List String) : RotOp → History → History × Option String
  | .reconcile sigma, s => (refresh_pending_list sigma disk s, none)
  | .advance sigma ok, s => next_photo sigma disk ok s
  | .scheduled sigma now ok, s => change_photo sigma disk now ok s

/-- Run a sequence of rotation operations over a fixed disk, collecting
the trace of photos returned as current, in order. -/
def runRot (disk : List String) : List RotOp → History → History × List String
  | [], s => (s, [])
  | op :: rest, s =>
      let r := rotStep disk op s
      let t := runRot disk rest r.1
      (t.1, r.2.toList ++ t.2)

/-- The shuffle carried by a rotation operation permutes its argument. -/
def opSigmaOK : RotOp → Prop
  | .reconcile sigma => ∀ l : List String, (sigma l).Perm l
  | .advance sigma _ => ∀ l : List String, (sigma l).Perm l
  | .scheduled sigma _ _ => ∀ l : List String, (sigma l).Perm l

/-- All shuffles of an operation sequence permute their arguments. -/
def ValidRotOps (ops : List RotOp) : Prop := ∀ op ∈ ops, opSigmaOK op

/-- Fairness of a trace with respect to the tracked photos `disk`: at
every position holding a photo already returned earlier, every other
tracked photo has already been returned before that position. -/
def FairTrace (disk tr : List String) : Prop :=
  ∀ j : Fin tr.length, tr.get j ∈ tr.take j.1 →
    ∀ q ∈ disk, q ≠ tr.get j → q ∈ tr.take j.1

/-- The fairness invariant over the queue fields: either the first full
pass is still running — the trace is exactly `shown` followed by the
current photo, trace and `pending` are jointly duplicate-free, and (once
seeded) they jointly hold exactly the disk photos — or every tracked
photo has already been returned. -/
def TrackCore (disk sh pe : List String) (cu : Option String)
    (tr : List String) : Prop :=
  (tr = sh ++ cu.toList ∧ (tr ++ pe).Nodup ∧
    (tr ++ pe = [] ∨ ∀ x, x ∈ tr ++ pe ↔ x ∈ disk)) ∨
  (∀ q ∈ disk, q ∈ tr)

/-- The fairness invariant on a history state. -/
def TrackInv (disk : List String) (s : History) (tr : List String) : Prop :=
  TrackCore disk s.shown s.pending s.current tr

/-- `refresh_pending_list` preserves the fairness invariant, leaving the
trace unchanged. -/
theorem refresh_trackInv (sigma : List String → List String)
    (disk : List String) (s : History) (tr : List String)
    (hs : ∀ l : List String, (sigma l).Perm l) (hd : disk.Nodup)
    (h : TrackInv disk s tr) :
    TrackInv disk (refresh_pending_list sigma disk s) tr := by
  rcases h with ⟨h1, h2, h3⟩ | hB
  · rcases h3 with h30 | h3x
    · have htr : tr = [] := (List.append_eq_nil.1 h30).1
      have hpe : s.pending = [] := (List.append_eq_nil.1 h30).2
      have hshcu : s.shown ++ s.current.toList = [] := by rw [← h1, htr]
      have hsh : s.shown = [] := (List.append_eq_nil.1 hshcu).1
      have hcu : s.current.toList = [] := (List.append_eq_nil.1 hshcu).2
      have hks : keptShown disk s = [] := by rw [keptShown, hsh]; rfl
      have hkp : keptPending disk s = [] := by rw [keptPending, hpe]; rfl
      have hkn : knownPhotos disk s = [] := by rw [knownPhotos, hks, hkp, hcu]; rfl
      have hnew : newFromDisk disk s = disk := by
        rw [newFromDisk]
        apply List.filter_eq_self.2
        intro a _
        simp [hkn]
      have hpa : pendingAfterAdd disk s = disk := by
        rw [pendingAfterAdd, hkp, hnew]; rfl
      by_cases hdisk : disk = []
      · subst hdisk
        rw [refresh_seed sigma [] s (by rw [hpa]) hks]
        have hsig : sigma [] = [] := (hs []).eq_nil
        exact Or.inl ⟨by simp [htr, hcu], by simp [htr, hsig],
          Or.inl (by simp [htr, hsig])⟩
      · rw [refresh_no_reset sigma disk s (by rw [hpa]; exact hdisk)]
        refine Or.inl ⟨by simp [htr, hks, hcu], ?_, Or.inr ?_⟩
        · show (tr ++ pendingAfterAdd disk s).Nodup
          rw [htr, hpa]
          simpa using hd
        · intro x
          show x ∈ tr ++ pendingAfterAdd disk s ↔ x ∈ disk
          rw [htr, hpa]
          simp
    · have hshD : ∀ x ∈ s.shown, x ∈ disk := by
        intro x hx
        exact (h3x x).1 (List.mem_append_left _ (by
          rw [h1]; exact List.mem_append_left _ hx))
      have hcuD : ∀ x ∈ s.current.toList, x ∈ disk := by
        intro x hx
        exact (h3x x).1 (List.mem_append_left _ (by
          rw [h1]; exact List.mem_append_right _ hx))
      have hpeD : ∀ x ∈ s.pending, x ∈ disk := by
        intro x hx
        exact (h3x x).1 (List.mem_append_right _ hx)
      have hks : keptShown disk s = s.shown := by
        rw [keptShown]
        apply List.filter_eq_self.2
        intro a ha
        simpa using hshD a ha
      have hkp : keptPending disk s = s.pending := by
        rw [keptPending]
        apply List.filter_eq_self.2
        intro a ha
        simpa using hpeD a ha
      have hnew : newFromDisk disk s = [] := by
        rw [newFromDisk]
        apply List.filter_eq_nil_iff.2
        intro a ha
        have haTP : a ∈ tr ++ s.pending := (h3x a).2 ha
        have haK : a ∈ knownPhotos disk s := by
          rw [mem_knownPhotos, hks, hkp]
          rcases List.mem_append.1 haTP with h4 | h4
          · rw [h1] at h4
            rcases List.mem_append.1 h4 with h5 | h5
            · exact Or.inl h5
            · exact Or.inr (Or.inr h5)
          · exact Or.inr (Or.inl h4)
        simp [haK]
      have hpa : pendingAfterAdd disk s = s.pending := by
        rw [pendingAfterAdd, hkp, hnew, List.append_nil]
      by_cases hpe0 : s.pending = []
      · have hcov : ∀ q ∈ disk, q ∈ tr := by
          intro q hq
          have := (h3x q).2 hq
          rw [hpe0, List.append_nil] at this
          exact this
        by_cases hsh0 : s.shown = []
        · rw [refresh_seed sigma disk s (by rw [hpa]; exact hpe0)
            (by rw [hks]; exact hsh0)]
          exact Or.inr hcov
        · rw [refresh_reset sigma disk s hs (by rw [hpa]; exact hpe0)
            (by rw [hks]; exact hsh0)]
          exact Or.inr hcov
      · rw [refresh_no_reset sigma disk s (by rw [hpa]; exact hpe0)]
        refine Or.inl ⟨?_, ?_, Or.inr ?_⟩
        · show tr = keptShown disk s ++ s.current.toList
          rw [hks]
          exact h1
        · show (tr ++ pendingAfterAdd disk s).Nodup
          rw [hpa]
          exact h2
        · intro x
          show x ∈ tr ++ pendingAfterAdd disk s ↔ x ∈ disk
          rw [hpa]
          exact h3x x
  · exact Or.inr hB

/-- Popping the head of a non-empty `pending` extends the trace by that
photo, preserves the invariant, and the new entry is either not a repeat
or every tracked photo was already returned. -/
theorem popTrack (disk sh pe : List String) (cu : Option String)
    (p : String) (rest tr : List String) (hp : pe = p :: rest)
    (h : TrackCore disk sh pe cu tr) :
    TrackCore disk (sh ++ cu.toList) rest (some p) (tr ++ [p]) ∧
    (p ∉ tr ∨ ∀ q ∈ disk, q ∈ tr) := by
  have hassoc : (tr ++ [p]) ++ rest = tr ++ pe := by
    rw [hp, List.append_assoc, List.singleton_append]
  rcases h with ⟨h1, h2, h3⟩ | hB
  · constructor
    · left
      refine ⟨by rw [h1]; rfl, by rw [hassoc]; exact h2, Or.inr ?_⟩
      rcases h3 with h30 | h3x
      · exact absurd ((List.append_eq_nil.1 h30).2) (by simp [hp])
      · intro x
        rw [hassoc]
        exact h3x x
    · left
      intro hptr
      have hnd := List.nodup_append.1 h2
      exact hnd.2.2 hptr (by rw [hp]; exact List.mem_cons_self p rest)
  · exact ⟨Or.inr (fun q hq => List.mem_append_left _ (hB q hq)), Or.inr hB⟩

/-- Appending to a fair trace an entry that is either fresh or comes
after full coverage keeps the trace fair. -/
theorem fair_snoc (disk tr : List String) (p : String)
    (hf : FairTrace disk tr) (hp : p ∉ tr ∨ ∀ q ∈ disk, q ∈ tr) :
    FairTrace disk (tr ++ [p]) := by
  intro j hjmem q hq hne
  by_cases hcase : j.1 < tr.length
  · have hget : (tr ++ [p]).get j = tr.get ⟨j.1, hcase⟩ := by
      rw [List.get_eq_getElem, List.get_eq_getElem]
      exact List.getElem_append_left hcase
    have htake : (tr ++ [p]).take j.1 = tr.take j.1 := by
      rw [List.take_append_eq_append_take]
      have hz : j.1 - tr.length = 0 := by omega
      rw [hz, List.take_zero, List.append_nil]
    rw [hget, htake] at hjmem
    rw [htake]
    rw [hget] at hne
    exact hf ⟨j.1, hcase⟩ hjmem q hq hne
  · have hj1 : j.1 = tr.length := by
      have hlt := j.2
      simp only [List.length_append, List.length_cons, List.length_nil] at hlt
      omega
    have hget : (tr ++ [p]).get j = p := by
      rw [List.get_eq_getElem]
      exact List.getElem_concat_length tr p j.1 hj1 _
    have htake : (tr ++ [p]).take j.1 = tr := by
      rw [hj1, List.take_append_eq_append_take, List.take_length]
      simp
    rw [hget, htake] at hjmem
    rw [htake]
    rcases hp with hnp | hcov
    · exact absurd hjmem hnp
    · exact hcov q hq

/-- One rotation operation preserves the fairness invariant and the
fairness of the accumulated trace. -/
theorem rotStep_inv (disk : List String) (hd : disk.Nodup) (op : RotOp)
    (hop : opSigmaOK op) (s : History) (tr : List String)
    (h : TrackInv disk s tr) (hf : FairTrace disk tr) :
    TrackInv disk (rotStep disk op s).1
        (tr ++ ((rotStep disk op s).2).toList) ∧
    FairTrace disk (tr ++ ((rotStep disk op s).2).toList) := by
  cases op with
  | reconcile sigma =>
      simp only [rotStep, Option.toList_none, List.append_nil]
      exact ⟨refresh_trackInv sigma disk s tr hop hd h, hf⟩
  | advance sigma ok =>
      have h1 := refresh_trackInv sigma disk s tr hop hd h
      rcases hp : (refresh_pending_list sigma disk s).pending with _ | ⟨p, rest⟩
      · simp only [rotStep, next_photo, hp, Option.toList_none, List.append_nil]
        exact ⟨h1, hf⟩
      · have hpop := popTrack disk (refresh_pending_list sigma disk s).shown
          (refresh_pending_list sigma disk s).pending
          (refresh_pending_list sigma disk s).current p rest tr hp h1
        simp only [rotStep, next_photo, hp]
        cases ok <;>
          simp only [Bool.false_eq_true, if_neg, if_pos, ite_true, ite_false] <;>
          exact ⟨hpop.1, fair_snoc disk tr p hf hpop.2⟩
  | scheduled sigma now ok =>
      have h1 := refresh_trackInv sigma disk s tr hop hd h
      rcases hp : (refresh_pending_list sigma disk s).pending with _ | ⟨p, rest⟩
      · simp only [rotStep, change_photo, hp, Option.toList_none, List.append_nil]
        exact ⟨h1, hf⟩
      · have hpop := popTrack disk (refresh_pending_list sigma disk s).shown
          (refresh_pending_list sigma disk s).pending
          (refresh_pending_list sigma disk s).current p rest tr hp h1
        simp only [rotStep, change_photo, hp]
        cases ok <;>
          simp only [Bool.false_eq_true, if_neg, if_pos, ite_true, ite_false] <;>
          exact ⟨hpop.1, fair_snoc disk tr p hf hpop.2⟩

/-- Running any valid operation sequence preserves the invariant and the
fairness of the whole accumulated trace. -/
theorem runRot_inv (disk : List String) (hd : disk.Nodup) :
    ∀ (ops : List RotOp) (s : History) (tr : List String),
      ValidRotOps ops → TrackInv disk s tr → FairTrace disk tr →
      TrackInv disk (runRot disk ops s).1 (tr ++ (runRot disk ops s).2) ∧
      FairTrace disk (tr ++ (runRot disk ops s).2) := by
  intro ops
  induction ops with
  | nil =>
      intro s tr _ h hf
      simp only [runRot, List.append_nil]
      exact ⟨h, hf⟩
  | cons op rest ih =>
      intro s tr hv h hf
      have hop : opSigmaOK op := hv op (by simp)
      have hrest : ValidRotOps rest := fun o ho => hv o (by simp [ho])
      have hstep := rotStep_inv disk hd op hop s tr h hf
      have hind := ih (rotStep disk op s).1
        (tr ++ ((rotStep disk op s).2).toList) hrest hstep.1 hstep.2
      simp only [runRot]
      rw [← List.append_assoc]
      exact hind

/-- C1: fairness of the rotation cycle.  Starting from the fresh history
over a fixed duplicate-free disk, for every sequence of reconcile and
advance-forward operations (with permuting shuffles and no enqueue or
immediate-display in between): whenever the trace of photos returned as
current repeats a photo, every other tracked photo has already been
returned as current before that point. -/
theorem C1_fairness (disk : List String) (ops : List RotOp)
    (hd : disk.Nodup) (hops : ValidRotOps ops) :
    FairTrace disk (runRot disk ops freshHistory).2 := by
  have h0 : TrackInv disk freshHistory [] :=
    Or.inl ⟨rfl, List.nodup_nil, Or.inl rfl⟩
  have hf0 : FairTrace disk [] := fun j => absurd j.2 (by simp)
  have hrun := runRot_inv disk hd ops freshHistory [] hops h0 hf0
  have := hrun.2
  rwa [List.nil_append] at this

/-- Witness for C1: three advances over a fresh two-photo disk produce
the trace a, b, a, which is fair. -/
theorem C1_fairness_witness :
    FairTrace ["a", "b"]
      (runRot ["a", "b"]
        [RotOp.advance id true, RotOp.advance id true, RotOp.advance id true]
        freshHistory).2 := by
  apply C1_fairness ["a", "b"]
    [RotOp.advance id true, RotOp.advance id true, RotOp.advance id true]
    (by decide)
  intro op hop
  rcases List.mem_cons.1 hop with rfl | hop2
  · exact fun l => List.Perm.refl l
  rcases List.mem_cons.1 hop2 with rfl | hop3
  · exact fun l => List.Perm.refl l
  rcases List.mem_cons.1 hop3 with rfl | hop4
  · exact fun l => List.Perm.refl l
  · exact absurd hop4 (List.not_mem_nil op)

end InkyPhotoFrame
